import Mathlib

/-!
Verification of the `cn_baostock_data.py` collection daemon
(`python/scripts/cn_baostock_data.py` in the jupitor repository).

Shallow embedding conventions:

* ISO date strings `"YYYY-MM-DD"` are represented by their numeral
  `YYYYMMDD : Nat`; string comparison of ISO dates coincides with `Nat`
  comparison of these numerals, and the Python slice `date[:4]` (the year)
  is `date / 10000`.
* Symbols (`"sh.600000"`), index names (`"csi300"`) and error codes are
  kept as `String`.
* A daily bar row is keyed by `(symbol, date)`; the 16 remaining columns
  (OHLCV and auxiliary fields) are never inspected by the merge logic and
  are collapsed into a single opaque `payload`.
* A Python `dict` keyed by row-uniqueness keys is an association list with
  first-insertion key order: assignment replaces the value in place for a
  present key and appends a fresh key at the end.  `sorted` with a key
  function is the (unique) stable sort by that key, embedded here as a
  stable insertion sort.
* File-system effects are made explicit: a partition directory is the list
  of its files (year, rows); markers are `Option` values; a raised Python
  exception is `Except.error`.
-/

/- ----------------------------------------------------------------------
   Generic list machinery: stable sort (Python `sorted` / `list.sort`)
   ---------------------------------------------------------------------- -/

/-- Insert `a` into `l`, placing it before the first element `x` for which
`lt x a` is false.  Folding this over a list yields a stable sort: `a` goes
after every earlier element that is strictly smaller, and before every
earlier element that is not, which is exactly Python's stable `sorted`. -/
def insertBefore {α : Type} (lt : α → α → Bool) (a : α) : List α → List α
  | [] => [a]
  | x :: xs => if lt x a then x :: insertBefore lt a xs else a :: x :: xs

/-- Stable insertion sort with strict comparator `lt`; extensionally equal
to Python's `sorted(..., key=...)` (which is a stable sort) whenever `lt`
decides `key x < key a`. -/
def stableSort {α : Type} (lt : α → α → Bool) : List α → List α
  | [] => []
  | a :: l => insertBefore lt a (stableSort lt l)

theorem mem_insertBefore {α : Type} (lt : α → α → Bool) (a y : α) (l : List α) :
    y ∈ insertBefore lt a l ↔ y = a ∨ y ∈ l := by
  induction l with
  | nil => simp [insertBefore]
  | cons x xs ih =>
      cases h : lt x a with
      | true =>
          simp only [insertBefore, h, if_true, List.mem_cons, ih]
          tauto
      | false =>
          simp only [insertBefore, h, Bool.false_eq_true, if_false, List.mem_cons]

theorem perm_insertBefore {α : Type} (lt : α → α → Bool) (a : α) (l : List α) :
    (insertBefore lt a l).Perm (a :: l) := by
  induction l with
  | nil => simp [insertBefore]
  | cons x xs ih =>
      cases h : lt x a with
      | true =>
          simp only [insertBefore, h, if_true]
          exact (ih.cons x).trans (List.Perm.swap a x xs)
      | false => simp [insertBefore, h]

theorem perm_stableSort {α : Type} (lt : α → α → Bool) (l : List α) :
    (stableSort lt l).Perm l := by
  induction l with
  | nil => simp [stableSort]
  | cons a l ih =>
      exact (perm_insertBefore lt a (stableSort lt l)).trans (ih.cons a)

theorem pairwise_insertBefore {α : Type} (lt : α → α → Bool) (le : α → α → Prop)
    (htrans : Transitive le)
    (h1 : ∀ a x, lt x a = false → le a x)
    (h2 : ∀ a x, lt x a = true → le x a)
    (a : α) (l : List α) (hl : List.Pairwise le l) :
    List.Pairwise le (insertBefore lt a l) := by
  induction l with
  | nil => simp [insertBefore]
  | cons x xs ih =>
      rcases List.pairwise_cons.mp hl with ⟨hx, hxs⟩
      cases h : lt x a with
      | true =>
          simp only [insertBefore, h, if_true]
          refine List.pairwise_cons.mpr ⟨?_, ih hxs⟩
          intro y hy
          rcases (mem_insertBefore lt a y xs).mp hy with rfl | hy'
          · exact h2 _ _ h
          · exact hx y hy'
      | false =>
          have hax : le a x := h1 a x h
          simp only [insertBefore, h, Bool.false_eq_true, if_false]
          refine List.pairwise_cons.mpr ⟨?_, hl⟩
          intro y hy
          rcases List.mem_cons.mp hy with rfl | hy'
          · exact hax
          · exact htrans hax (hx y hy')

theorem pairwise_stableSort {α : Type} (lt : α → α → Bool) (le : α → α → Prop)
    (htrans : Transitive le)
    (h1 : ∀ a x, lt x a = false → le a x)
    (h2 : ∀ a x, lt x a = true → le x a)
    (l : List α) :
    List.Pairwise le (stableSort lt l) := by
  induction l with
  | nil => simp [stableSort]
  | cons a l ih => exact pairwise_insertBefore lt le htrans h1 h2 a _ ih

/-- A list already sorted (pairwise `le`) is a fixed point of the stable
sort, provided `le a x` rules out `lt x a`. -/
theorem stableSort_eq_self {α : Type} (lt : α → α → Bool) (le : α → α → Prop)
    (hcompat : ∀ a x, le a x → lt x a = false)
    (l : List α) (hl : List.Pairwise le l) :
    stableSort lt l = l := by
  induction l with
  | nil => rfl
  | cons a l ih =>
      rcases List.pairwise_cons.mp hl with ⟨ha, hl'⟩
      have : stableSort lt (a :: l) = insertBefore lt a l := by
        simp [stableSort, ih hl']
      rw [this]
      cases l with
      | nil => rfl
      | cons x xs =>
          have : lt x a = false := hcompat a x (ha x (by simp))
          simp [insertBefore, this]

/- ----------------------------------------------------------------------
   Data model: daily bar rows (BAR_SCHEMA), keyed by (symbol, date)
   ---------------------------------------------------------------------- -/

/-- One daily bar row of `BAR_SCHEMA`.  `_write_bars_parquet` keys rows by
`(r["symbol"], r["date"])` and sorts by `r["date"]`; the 16 remaining
columns are never read by the merge logic and are collapsed into `payload`. -/
structure Bar where
  symbol : String
  date : Nat
  payload : Nat
deriving DecidableEq

/-- The uniqueness key `(r["symbol"], r["date"])` used by the merge dict. -/
def keyOf (b : Bar) : String × Nat := (b.symbol, b.date)

/- ----------------------------------------------------------------------
   Python dict semantics over (symbol, date) keys
   ---------------------------------------------------------------------- -/

/-- `by_key[(r["symbol"], r["date"])] = r`: Python dict assignment.  For a
present key the value is replaced in place (keys of a dict built from the
empty dict are unique, so "first occurrence" is "the occurrence"); a fresh
key is appended, preserving first-insertion key order. -/
def dictInsert (m : List ((String × Nat) × Bar)) (b : Bar) :
    List ((String × Nat) × Bar) :=
  match m with
  | [] => [(keyOf b, b)]
  | p :: rest => if p.1 = keyOf b then (p.1, b) :: rest else p :: dictInsert rest b

/-- Fold a row list into a dict, seeding with `m` (the two `for` loops
filling `by_key` in `_write_bars_parquet`). -/
def dictFold (m : List ((String × Nat) × Bar)) (l : List Bar) :
    List ((String × Nat) × Bar) :=
  l.foldl dictInsert m

/-- Lookup in the association list (first entry with the key). -/
def assocFind (m : List ((String × Nat) × Bar)) (k : String × Nat) : Option Bar :=
  match m with
  | [] => none
  | p :: rest => if p.1 = k then some p.2 else assocFind rest k

/-- The last row of `l` whose key is `k` (the row a Python dict retains
after assigning every row of `l` under its key). -/
def lastWithKey (l : List Bar) (k : String × Nat) : Option Bar :=
  match l with
  | [] => none
  | b :: rest =>
      match lastWithKey rest k with
      | some r => some r
      | none => if keyOf b = k then some b else none

/- ----------------------------------------------------------------------
   _write_bars_parquet (cn_baostock_data.py lines 406-437), pure content:
   read existing rows, merge by (symbol, date) with incoming winning,
   sort by date, rewrite the file with the merged rows.
   ---------------------------------------------------------------------- -/

/-- The merged row list `by_key.values()` of `_write_bars_parquet`:
dict seeded with the existing rows, then overwritten with the incoming
rows; values in first-insertion key order. -/
def mergedRows (existing incoming : List Bar) : List Bar :=
  (dictFold [] (existing ++ incoming)).map Prod.snd

/-- Content written by `_write_bars_parquet path rows` when the partition
file currently holds `existing`:
`merged = sorted(by_key.values(), key=lambda r: r["date"])`. -/
def _write_bars_parquet (existing incoming : List Bar) : List Bar :=
  stableSort (fun r s => decide (r.date < s.date)) (mergedRows existing incoming)

/- ------------------- dict lemmas ------------------- -/

theorem dictInsert_fst (m : List ((String × Nat) × Bar)) (b : Bar) :
    (dictInsert m b).map Prod.fst =
      if keyOf b ∈ m.map Prod.fst then m.map Prod.fst
      else m.map Prod.fst ++ [keyOf b] := by
  induction m with
  | nil => simp [dictInsert]
  | cons p rest ih =>
      by_cases h : p.1 = keyOf b
      · simp [dictInsert, h]
      · have hne : ¬ (keyOf b = p.1) := fun hh => h hh.symm
        by_cases hmem : keyOf b ∈ rest.map Prod.fst
        · simp [dictInsert, h, ih, hmem, hne]
        · simp [dictInsert, h, ih, hmem, hne]

theorem dictInsert_nodup (m : List ((String × Nat) × Bar)) (b : Bar)
    (hm : (m.map Prod.fst).Nodup) : ((dictInsert m b).map Prod.fst).Nodup := by
  rw [dictInsert_fst]
  by_cases h : keyOf b ∈ m.map Prod.fst
  · simpa [h] using hm
  · simp only [h, if_false]
    refine List.Nodup.append hm (List.nodup_singleton _) ?_
    intro a ha hb
    simp only [List.mem_singleton] at hb
    subst hb
    exact h ha

theorem dictFold_nodup (m : List ((String × Nat) × Bar)) (l : List Bar)
    (hm : (m.map Prod.fst).Nodup) : ((dictFold m l).map Prod.fst).Nodup := by
  induction l generalizing m with
  | nil => exact hm
  | cons b l ih => exact ih (dictInsert m b) (dictInsert_nodup m b hm)

theorem assocFind_dictInsert (m : List ((String × Nat) × Bar)) (b : Bar)
    (k : String × Nat) :
    assocFind (dictInsert m b) k =
      if k = keyOf b then some b else assocFind m k := by
  induction m with
  | nil =>
      simp only [dictInsert, assocFind]
      by_cases h : k = keyOf b
      · simp [h]
      · have h' : ¬ (keyOf b = k) := fun hh => h hh.symm
        simp [h, h']
  | cons p rest ih =>
      by_cases hp : p.1 = keyOf b
      · by_cases hk : k = keyOf b
        · simp [dictInsert, assocFind, hp, hk]
        · have h1 : ¬ (p.1 = k) := by rw [hp]; exact fun hh => hk hh.symm
          have h2 : ¬ (keyOf b = k) := fun hh => hk hh.symm
          simp [dictInsert, assocFind, hp, hk, h1, h2]
      · by_cases hk : p.1 = k
        · have h1 : ¬ (k = keyOf b) := by rw [← hk]; exact fun hh => hp hh
          simp [dictInsert, assocFind, hp, hk, h1]
        · simp [dictInsert, assocFind, hp, hk, ih]

theorem assocFind_dictFold (m : List ((String × Nat) × Bar)) (l : List Bar)
    (k : String × Nat) :
    assocFind (dictFold m l) k =
      match lastWithKey l k with
      | some r => some r
      | none => assocFind m k := by
  induction l generalizing m with
  | nil => simp [dictFold, lastWithKey]
  | cons b l ih =>
      show assocFind (dictFold (dictInsert m b) l) k = _
      rw [ih]
      cases hl : lastWithKey l k with
      | some r => simp [lastWithKey, hl]
      | none =>
          rw [assocFind_dictInsert]
          by_cases hk : k = keyOf b
          · subst hk
            simp [lastWithKey, hl]
          · have h' : ¬ (keyOf b = k) := fun hh => hk hh.symm
            simp [lastWithKey, hl, hk, h']

/-- Every entry of a dict built by keyed assignment stores its own key. -/
def EntriesGood (m : List ((String × Nat) × Bar)) : Prop :=
  ∀ p ∈ m, p.1 = keyOf p.2

theorem entriesGood_dictInsert (m : List ((String × Nat) × Bar)) (b : Bar)
    (hm : EntriesGood m) : EntriesGood (dictInsert m b) := by
  induction m with
  | nil =>
      intro p hp
      simp only [dictInsert, List.mem_singleton] at hp
      subst hp; rfl
  | cons q rest ih =>
      intro p hp
      simp only [dictInsert] at hp
      by_cases h : q.1 = keyOf b
      · rw [if_pos h] at hp
        rcases List.mem_cons.mp hp with h' | hp'
        · subst h'
          simpa using h
        · exact hm p (List.mem_cons_of_mem _ hp')
      · rw [if_neg h] at hp
        rcases List.mem_cons.mp hp with h' | hp'
        · rw [h']
          exact hm q (List.mem_cons_self _ _)
        · exact ih (fun r hr => hm r (List.mem_cons_of_mem _ hr)) p hp'

theorem entriesGood_dictFold (m : List ((String × Nat) × Bar)) (l : List Bar)
    (hm : EntriesGood m) : EntriesGood (dictFold m l) := by
  induction l generalizing m with
  | nil => exact hm
  | cons b l ih => exact ih (dictInsert m b) (entriesGood_dictInsert m b hm)

theorem lastWithKey_some (l : List Bar) (k : String × Nat) (r : Bar)
    (h : lastWithKey l k = some r) : r ∈ l ∧ keyOf r = k := by
  induction l with
  | nil => simp [lastWithKey] at h
  | cons b rest ih =>
      simp only [lastWithKey] at h
      cases hrest : lastWithKey rest k with
      | some r' =>
          rw [hrest] at h
          obtain rfl : r' = r := by simpa using h
          rcases ih hrest with ⟨h1, h2⟩
          exact ⟨List.mem_cons_of_mem b h1, h2⟩
      | none =>
          rw [hrest] at h
          by_cases hb : keyOf b = k
          · simp only [hb, if_true] at h
            obtain rfl : b = r := by simpa using h
            exact ⟨List.mem_cons_self b rest, hb⟩
          · simp [hb] at h

theorem lastWithKey_isSome_of_mem (l : List Bar) (b : Bar) (h : b ∈ l) :
    ∃ r, lastWithKey l (keyOf b) = some r := by
  induction l with
  | nil => simp at h
  | cons x rest ih =>
      rcases List.mem_cons.mp h with rfl | h'
      · simp only [lastWithKey]
        cases hrest : lastWithKey rest (keyOf b) with
        | some r => exact ⟨r, rfl⟩
        | none => exact ⟨b, by simp⟩
      · rcases ih h' with ⟨r, hr⟩
        exact ⟨r, by simp [lastWithKey, hr]⟩

theorem lastWithKey_append (l₁ l₂ : List Bar) (k : String × Nat) :
    lastWithKey (l₁ ++ l₂) k =
      match lastWithKey l₂ k with
      | some r => some r
      | none => lastWithKey l₁ k := by
  induction l₁ with
  | nil =>
      simp only [List.nil_append]
      cases h : lastWithKey l₂ k <;> simp [h, lastWithKey]
  | cons b rest ih =>
      simp only [List.cons_append, lastWithKey]
      rw [List.append_eq, ih]
      cases h : lastWithKey l₂ k <;> simp [h, lastWithKey]

/-- With unique keys, a lookup hit is exactly membership of the entry. -/
theorem assocFind_eq_some_iff (m : List ((String × Nat) × Bar))
    (hm : (m.map Prod.fst).Nodup) (k : String × Nat) (v : Bar) :
    assocFind m k = some v ↔ (k, v) ∈ m := by
  induction m with
  | nil => simp [assocFind]
  | cons p rest ih =>
      have hm' : p.1 ∉ rest.map Prod.fst ∧ (rest.map Prod.fst).Nodup := by
        rw [List.map_cons, List.nodup_cons] at hm
        exact hm
      rcases hm' with ⟨hp, hrest⟩
      by_cases h : p.1 = k
      · subst h
        simp only [assocFind, if_pos rfl, List.mem_cons]
        constructor
        · intro hv
          have hv' : p.2 = v := by simpa using hv
          left
          rw [← hv']
        · rintro (h' | hmem)
          · have hv' : v = p.2 := congrArg Prod.snd h'
            simp [hv']
          · exact absurd (List.mem_map_of_mem Prod.fst hmem) hp
      · simp only [assocFind, if_neg h, ih hrest, List.mem_cons]
        constructor
        · exact Or.inr
        · rintro (rfl | hmem)
          · exact absurd rfl h
          · exact hmem

theorem assocFind_eq_none_iff (m : List ((String × Nat) × Bar)) (k : String × Nat) :
    assocFind m k = none ↔ k ∉ m.map Prod.fst := by
  induction m with
  | nil => simp [assocFind]
  | cons p rest ih =>
      by_cases h : p.1 = k
      · simp [assocFind, h]
      · simp only [assocFind, if_neg h, ih, List.map_cons, List.mem_cons]
        constructor
        · intro hn hmem
          rcases hmem with hmem | hmem
          · exact h hmem.symm
          · exact hn hmem
        · intro hn hmem
          exact hn (Or.inr hmem)

/-- Row membership in the dict's value list is a lookup hit at the row's
own key (unique keys, well-keyed entries). -/
theorem mem_values_iff_assocFind (m : List ((String × Nat) × Bar))
    (hm : (m.map Prod.fst).Nodup) (hg : EntriesGood m) (b : Bar) :
    b ∈ m.map Prod.snd ↔ assocFind m (keyOf b) = some b := by
  rw [assocFind_eq_some_iff m hm]
  constructor
  · intro h
    rcases List.mem_map.mp h with ⟨p, hp, hpb⟩
    have hk := hg p hp
    have : p = (keyOf b, b) := by
      cases p with
      | mk k v =>
          simp only at hpb
          subst hpb
          simpa using hk
    rwa [this] at hp
  · intro h
    exact List.mem_map.mpr ⟨(keyOf b, b), h, rfl⟩

theorem assocFind_dictFold_nil (l : List Bar) (k : String × Nat) :
    assocFind (dictFold [] l) k = lastWithKey l k := by
  rw [assocFind_dictFold]
  cases lastWithKey l k <;> simp [assocFind]

theorem map_keyOf_values (m : List ((String × Nat) × Bar)) (hg : EntriesGood m) :
    (m.map Prod.snd).map keyOf = m.map Prod.fst := by
  rw [List.map_map]
  exact List.map_congr_left fun p hp => (hg p hp).symm

theorem mem_mergedRows (e i : List Bar) (b : Bar) :
    b ∈ mergedRows e i ↔ lastWithKey (e ++ i) (keyOf b) = some b := by
  unfold mergedRows
  rw [mem_values_iff_assocFind _ (dictFold_nodup [] _ (by simp))
        (entriesGood_dictFold [] _ (by intro p hp; simp at hp)),
      assocFind_dictFold_nil]

theorem mergedRows_keys_nodup (e i : List Bar) :
    ((mergedRows e i).map keyOf).Nodup := by
  unfold mergedRows
  rw [map_keyOf_values _ (entriesGood_dictFold [] _ (by intro p hp; simp at hp))]
  exact dictFold_nodup [] _ (by simp)

theorem lastWithKey_eq_none_iff (l : List Bar) (k : String × Nat) :
    lastWithKey l k = none ↔ k ∉ l.map keyOf := by
  induction l with
  | nil => simp [lastWithKey]
  | cons b rest ih =>
      simp only [lastWithKey, List.map_cons, List.mem_cons]
      cases h : lastWithKey rest k with
      | some r =>
          have : k ∈ rest.map keyOf := by
            by_contra hk
            rw [← ih] at hk
            rw [h] at hk
            exact Option.noConfusion hk
          simp [this]
      | none =>
          by_cases hb : keyOf b = k
          · simp [hb]
          · have h1 : ¬ (k = keyOf b) := fun hh => hb hh.symm
            have h2 : k ∉ rest.map keyOf := ih.mp h
            simp [hb, h1, h2]

theorem lastWithKey_of_mem_nodup (l : List Bar) (hl : (l.map keyOf).Nodup)
    (b : Bar) (hb : b ∈ l) : lastWithKey l (keyOf b) = some b := by
  rcases lastWithKey_isSome_of_mem l b hb with ⟨r, hr⟩
  rcases lastWithKey_some l (keyOf b) r hr with ⟨hmem, hkey⟩
  have : r = b := List.inj_on_of_nodup_map hl hmem hb hkey
  rw [this] at hr
  exact hr

/-- The merged-row membership characterization under unique keys on each
side: a row survives iff it is incoming, or existing with a key no
incoming row has. -/
theorem mem_mergedRows_iff (e i : List Bar)
    (he : (e.map keyOf).Nodup) (hi : (i.map keyOf).Nodup) (b : Bar) :
    b ∈ mergedRows e i ↔ b ∈ i ∨ (b ∈ e ∧ keyOf b ∉ i.map keyOf) := by
  rw [mem_mergedRows, lastWithKey_append]
  constructor
  · intro h
    cases hli : lastWithKey i (keyOf b) with
    | some r =>
        rw [hli] at h
        have hrb : r = b := by simpa using h
        rw [hrb] at hli
        exact Or.inl (lastWithKey_some i (keyOf b) b hli).1
    | none =>
        rw [hli] at h
        refine Or.inr ⟨(lastWithKey_some e (keyOf b) b h).1, ?_⟩
        exact (lastWithKey_eq_none_iff i (keyOf b)).mp hli
  · rintro (hbi | ⟨hbe, hbk⟩)
    · rw [lastWithKey_of_mem_nodup i hi b hbi]
    · rw [(lastWithKey_eq_none_iff i (keyOf b)).mpr hbk]
      exact lastWithKey_of_mem_nodup e he b hbe

/- ----------------------------------------------------------------------
   C1: merge correctness of _write_bars_parquet
   ---------------------------------------------------------------------- -/

/-- Ascending order on the `(symbol, date)` uniqueness key (lexicographic:
symbols by string order, dates numerically).  The claim asserts the merged
partition is sorted by this order; the code sorts by `date` alone. -/
def keyLe (a b : Bar) : Prop :=
  a.symbol < b.symbol ∨ (a.symbol = b.symbol ∧ a.date ≤ b.date)

/-- C1 (counterexample): with rows of two symbols in one partition file,
`_write_bars_parquet` keeps date order `[("b", 2024-01-02), ("a", 2024-01-03)]`,
which is not ascending in the `(symbol, date)` key — the claim's sortedness
conjunct fails as stated. -/
theorem _write_bars_parquet_not_key_sorted :
    ¬ List.Pairwise keyLe
      (_write_bars_parquet [] [Bar.mk "b" 20240102 0, Bar.mk "a" 20240103 0]) := by
  intro h
  have hres : _write_bars_parquet [] [Bar.mk "b" 20240102 0, Bar.mk "a" 20240103 0] =
      [Bar.mk "b" 20240102 0, Bar.mk "a" 20240103 0] := by decide
  rw [hres] at h
  rcases List.pairwise_cons.mp h with ⟨hb, _⟩
  rcases hb (Bar.mk "a" 20240103 0) (by simp) with hlt | ⟨heq, _⟩
  · rw [String.lt_iff_toList_lt] at hlt
    exact absurd hlt (by decide)
  · exact absurd heq (by decide)

/-- C1 (amended): for existing and incoming row lists with unique keys,
`_write_bars_parquet` produces exactly the key-indexed union — an incoming
row replaces the existing row with the same `(symbol, date)` key, rows with
non-overlapping keys are preserved unchanged — with no duplicate keys, and
the result is sorted ascending by `date` (which coincides with ascending
key order exactly when all rows share one symbol, as every caller
guarantees via per-symbol partition files). -/
theorem _write_bars_parquet_merge_correct (e i : List Bar)
    (he : (e.map keyOf).Nodup) (hi : (i.map keyOf).Nodup) :
    (∀ b, b ∈ _write_bars_parquet e i ↔
        b ∈ i ∨ (b ∈ e ∧ keyOf b ∉ i.map keyOf))
    ∧ ((_write_bars_parquet e i).map keyOf).Nodup
    ∧ List.Pairwise (fun r s => r.date ≤ s.date) (_write_bars_parquet e i) := by
  refine ⟨?_, ?_, ?_⟩
  · intro b
    unfold _write_bars_parquet
    rw [(perm_stableSort _ (mergedRows e i)).mem_iff]
    exact mem_mergedRows_iff e i he hi b
  · unfold _write_bars_parquet
    have hperm := (perm_stableSort (fun r s => decide (r.date < s.date))
      (mergedRows e i)).map keyOf
    exact (hperm.nodup_iff).mpr (mergedRows_keys_nodup e i)
  · unfold _write_bars_parquet
    refine pairwise_stableSort _ _ ?_ ?_ ?_ _
    · intro a b c hab hbc
      exact le_trans hab hbc
    · intro a x h
      have : ¬ (x.date < a.date) := by simpa using h
      omega
    · intro a x h
      have : x.date < a.date := by simpa using h
      omega

/-- C1 witness: the spec's own example — existing `(AAPL, 2024-01-02, 100)`,
incoming `(AAPL, 2024-01-02, 101)` and `(AAPL, 2024-01-03, 102)`; the
updated row is in the merged partition. -/
theorem _write_bars_parquet_merge_correct_witness :
    Bar.mk "AAPL" 20240102 101 ∈
      _write_bars_parquet [Bar.mk "AAPL" 20240102 100]
        [Bar.mk "AAPL" 20240102 101, Bar.mk "AAPL" 20240103 102] :=
  ((_write_bars_parquet_merge_correct _ _ (by decide) (by decide)).1 _).mpr
    (Or.inl (by decide))

/- ----------------------------------------------------------------------
   C2: idempotence of _write_bars_parquet
   ---------------------------------------------------------------------- -/

/-- The dict entry a row contributes under its own key. -/
def pairOf (b : Bar) : (String × Nat) × Bar := (keyOf b, b)

theorem dictInsert_of_not_mem (m : List ((String × Nat) × Bar)) (b : Bar)
    (h : keyOf b ∉ m.map Prod.fst) : dictInsert m b = m ++ [pairOf b] := by
  induction m with
  | nil => rfl
  | cons p rest ih =>
      have h1 : ¬ (p.1 = keyOf b) := by
        intro hh
        exact h (by simp [← hh])
      have h2 : keyOf b ∉ rest.map Prod.fst := by
        intro hh
        exact h (by simp [hh])
      simp [dictInsert, h1, ih h2]

theorem dictFold_of_fresh (m : List ((String × Nat) × Bar)) (l : List Bar)
    (hnd : (l.map keyOf).Nodup)
    (hfresh : ∀ b ∈ l, keyOf b ∉ m.map Prod.fst) :
    dictFold m l = m ++ l.map pairOf := by
  induction l generalizing m with
  | nil => simp [dictFold]
  | cons b rest ih =>
      have hnd' : keyOf b ∉ rest.map keyOf ∧ (rest.map keyOf).Nodup := by
        rw [List.map_cons, List.nodup_cons] at hnd
        exact hnd
      rcases hnd' with ⟨hb, hrest⟩
      show dictFold (dictInsert m b) rest = _
      rw [dictInsert_of_not_mem m b (hfresh b (List.mem_cons_self b rest))]
      rw [ih (m ++ [pairOf b]) hrest ?_]
      · simp
      · intro x hx
        intro hmem
        rw [List.map_append] at hmem
        rcases List.mem_append.mp hmem with hm | hm
        · exact hfresh x (List.mem_cons_of_mem b hx) hm
        · simp only [List.map_cons, List.map_nil, List.mem_singleton, pairOf] at hm
          exact hb (hm ▸ List.mem_map_of_mem keyOf hx)

theorem dictInsert_fst_of_mem (m : List ((String × Nat) × Bar)) (b : Bar)
    (h : keyOf b ∈ m.map Prod.fst) :
    (dictInsert m b).map Prod.fst = m.map Prod.fst := by
  rw [dictInsert_fst]
  simp [h]

theorem dictFold_fst_of_present (m : List ((String × Nat) × Bar)) (l : List Bar)
    (h : ∀ b ∈ l, keyOf b ∈ m.map Prod.fst) :
    (dictFold m l).map Prod.fst = m.map Prod.fst := by
  induction l generalizing m with
  | nil => rfl
  | cons b rest ih =>
      show (dictFold (dictInsert m b) rest).map Prod.fst = _
      have hb := h b (List.mem_cons_self b rest)
      rw [ih (dictInsert m b) ?_, dictInsert_fst_of_mem m b hb]
      intro x hx
      rw [dictInsert_fst_of_mem m b hb]
      exact h x (List.mem_cons_of_mem b hx)

theorem mem_fst_iff_assocFind (m : List ((String × Nat) × Bar)) (k : String × Nat) :
    k ∈ m.map Prod.fst ↔ assocFind m k ≠ none := by
  rw [Ne, assocFind_eq_none_iff]
  tauto

theorem assocFind_perm (m₁ m₂ : List ((String × Nat) × Bar)) (hp : m₁.Perm m₂)
    (h1 : (m₁.map Prod.fst).Nodup) (k : String × Nat) :
    assocFind m₁ k = assocFind m₂ k := by
  have h2 : (m₂.map Prod.fst).Nodup := ((hp.map Prod.fst).nodup_iff).mp h1
  cases h : assocFind m₁ k with
  | some v =>
      have hv := (assocFind_eq_some_iff m₁ h1 k v).mp h
      exact ((assocFind_eq_some_iff m₂ h2 k v).mpr (hp.mem_iff.mp hv)).symm
  | none =>
      have hv := (assocFind_eq_none_iff m₁ k).mp h
      refine ((assocFind_eq_none_iff m₂ k).mpr ?_).symm
      intro hmem
      exact hv ((hp.map Prod.fst).mem_iff.mpr hmem)

/-- Association lists with identical key sequences, unique keys, and equal
lookups are equal. -/
theorem assoc_ext (m₁ m₂ : List ((String × Nat) × Bar))
    (hfst : m₁.map Prod.fst = m₂.map Prod.fst)
    (hnd : (m₁.map Prod.fst).Nodup)
    (hfind : ∀ k, assocFind m₁ k = assocFind m₂ k) : m₁ = m₂ := by
  induction m₁ generalizing m₂ with
  | nil =>
      cases m₂ with
      | nil => rfl
      | cons q s => simp at hfst
  | cons p r ih =>
      cases m₂ with
      | nil => simp at hfst
      | cons q s =>
          simp only [List.map_cons, List.cons.injEq] at hfst
          rcases hfst with ⟨hk, htail⟩
          have hnd' : p.1 ∉ r.map Prod.fst ∧ (r.map Prod.fst).Nodup := by
            rw [List.map_cons, List.nodup_cons] at hnd
            exact hnd
          rcases hnd' with ⟨hpnr, hrnd⟩
          have hval : p.2 = q.2 := by
            have := hfind p.1
            simp only [assocFind, if_pos rfl] at this
            rw [← hk] at this
            simp only [if_pos rfl] at this
            exact Option.some.inj this.symm ▸ rfl
          have hpq : p = q := Prod.ext hk hval
          subst hpq
          congr 1
          refine ih s htail hrnd ?_
          intro k
          by_cases hkk : p.1 = k
          · subst hkk
            have hr : assocFind r p.1 = none :=
              (assocFind_eq_none_iff r p.1).mpr hpnr
            have hs : assocFind s p.1 = none := by
              refine (assocFind_eq_none_iff s p.1).mpr ?_
              rw [← htail]
              exact hpnr
            rw [hr, hs]
          · have := hfind k
            simpa [assocFind, hkk] using this

/-- Well-keyed dicts are recovered from their value lists. -/
theorem values_pair_eq (m : List ((String × Nat) × Bar)) (hg : EntriesGood m) :
    (m.map Prod.snd).map pairOf = m := by
  rw [List.map_map]
  have : ∀ p ∈ m, (pairOf ∘ Prod.snd) p = p := by
    intro p hp
    have := hg p hp
    cases p with
    | mk k v =>
        simp only [Function.comp, pairOf]
        simp only at this
        rw [← this]
  rw [List.map_congr_left this]
  exact List.map_id' m

/-- C2: upserting the identical row list twice yields, row for row, the
partition contents of upserting it once — the merged file re-read as
`existing` absorbs a second identical upsert without change. -/
theorem _write_bars_parquet_idempotent (e i : List Bar) :
    _write_bars_parquet (_write_bars_parquet e i) i = _write_bars_parquet e i := by
  have hgD : EntriesGood (dictFold [] (e ++ i)) :=
    entriesGood_dictFold [] _ (by intro p hp; simp at hp)
  have hRperm : (_write_bars_parquet e i).Perm (mergedRows e i) :=
    perm_stableSort _ _
  have hRkeys : ((_write_bars_parquet e i).map keyOf).Nodup :=
    ((hRperm.map keyOf).nodup_iff).mpr (mergedRows_keys_nodup e i)
  have hRsorted : List.Pairwise (fun r s => r.date ≤ s.date) (_write_bars_parquet e i) := by
    unfold _write_bars_parquet
    refine pairwise_stableSort (fun r s : Bar => decide (r.date < s.date))
      (fun r s : Bar => r.date ≤ s.date) ?_ ?_ ?_ _
    · intro a b c hab hbc
      exact Nat.le_trans hab hbc
    · intro a x h
      have : ¬ (x.date < a.date) := by simpa using h
      omega
    · intro a x h
      have : x.date < a.date := by simpa using h
      omega
  have hMfst : ((_write_bars_parquet e i).map pairOf).map Prod.fst =
      (_write_bars_parquet e i).map keyOf := by
    rw [List.map_map]
    rfl
  have hMnd : (((_write_bars_parquet e i).map pairOf).map Prod.fst).Nodup := by
    rw [hMfst]
    exact hRkeys
  have hfoldR : dictFold [] (_write_bars_parquet e i) =
      (_write_bars_parquet e i).map pairOf := by
    have h := dictFold_of_fresh [] (_write_bars_parquet e i) hRkeys
      (by intro b hb; simp)
    simpa using h
  have hMD : ((_write_bars_parquet e i).map pairOf).Perm (dictFold [] (e ++ i)) := by
    have h := hRperm.map pairOf
    unfold mergedRows at h
    rwa [values_pair_eq _ hgD] at h
  have hipres : ∀ b ∈ i, keyOf b ∈ ((_write_bars_parquet e i).map pairOf).map Prod.fst := by
    intro b hb
    rw [hMfst]
    have h1 : keyOf b ∈ (mergedRows e i).map keyOf := by
      unfold mergedRows
      rw [map_keyOf_values _ hgD, mem_fst_iff_assocFind, assocFind_dictFold_nil,
        Ne, lastWithKey_eq_none_iff]
      intro hcon
      refine hcon ?_
      rw [List.map_append]
      exact List.mem_append.mpr (Or.inr (List.mem_map_of_mem keyOf hb))
    exact ((hRperm.map keyOf).mem_iff).mpr h1
  have hM : dictFold ((_write_bars_parquet e i).map pairOf) i =
      (_write_bars_parquet e i).map pairOf := by
    refine assoc_ext _ _ (dictFold_fst_of_present _ i hipres) ?_ ?_
    · rw [dictFold_fst_of_present _ i hipres]
      exact hMnd
    · intro k
      rw [assocFind_dictFold]
      cases hl : lastWithKey i k with
      | none => simp only [hl]
      | some r =>
          simp only [hl]
          have hfind : assocFind ((_write_bars_parquet e i).map pairOf) k =
              lastWithKey (e ++ i) k := by
            rw [assocFind_perm _ _ hMD hMnd k, assocFind_dictFold_nil]
          rw [hfind, lastWithKey_append]
          simp [hl]
  have key : mergedRows (_write_bars_parquet e i) i = _write_bars_parquet e i := by
    show (dictFold [] (_write_bars_parquet e i ++ i)).map Prod.snd = _
    have hsplit : dictFold [] (_write_bars_parquet e i ++ i) =
        dictFold (dictFold [] (_write_bars_parquet e i)) i := by
      unfold dictFold
      rw [List.foldl_append]
    rw [hsplit, hfoldR, hM, List.map_map]
    have : ∀ b ∈ _write_bars_parquet e i, (Prod.snd ∘ pairOf) b = b := by
      intro b _
      rfl
    rw [List.map_congr_left this]
    exact List.map_id' _
  show stableSort _ (mergedRows (_write_bars_parquet e i) i) = _
  rw [key]
  refine stableSort_eq_self _ (fun r s => r.date ≤ s.date) ?_ _ hRsorted
  intro a x h
  have : ¬ (x.date < a.date) := by omega
  simpa using this

/- ----------------------------------------------------------------------
   BaoStock query helpers (cn_baostock_data.py lines 167-236)
   ---------------------------------------------------------------------- -/

/-- A BaoStock result set: the `error_code` (the string "0" on success) and
the raw rows delivered by `rs.next()` / `rs.get_row_data()`. -/
structure BsResultSet where
  errorCode : String
  rows : List (List String)
deriving DecidableEq

/-- `_query_trading_days` (lines 167-177): raises `RuntimeError` when the
source reports an error; otherwise keeps column 0 of the rows whose
`is_trading_day` column equals "1".  The raised exception is the
`Except.error` branch. -/
def _query_trading_days (rs : BsResultSet) : Except String (List String) :=
  if rs.errorCode ≠ "0" then Except.error "trade calendar query failed"
  else Except.ok
    ((rs.rows.filter (fun row => row.getD 1 "" = "1")).map (fun row => row.getD 0 ""))

/-- The dedup-and-collect loop of `_query_index_constituents`: keep rows
with at least 3 fields, a non-empty code (`row[1]`), and a code not seen
before; collect `(code, name)` in arrival order. -/
def constituentsCollect (rows : List (List String)) : List (String × String) :=
  (rows.foldl
    (fun (st : List String × List (String × String)) row =>
      if row.length ≥ 3 ∧ row.getD 1 "" ≠ "" ∧ row.getD 1 "" ∉ st.1 then
        (row.getD 1 "" :: st.1, st.2 ++ [(row.getD 1 "", row.getD 2 "")])
      else st)
    ([], [])).2

/-- `_query_index_constituents` (lines 180-200): on a source-reported error
(`error_code != "0"`) it returns the empty list — the same value as an
empty success; otherwise the deduplicated `(code, name)` pairs sorted by
code (`results.sort(key=lambda x: x[0])`, a stable sort). -/
def _query_index_constituents (rs : BsResultSet) : List (String × String) :=
  if rs.errorCode ≠ "0" then []
  else stableSort (fun a b : String × String => decide (a.1 < b.1)) (constituentsCollect rs.rows)

/-- `_query_daily_bars` (lines 203-236): on a source-reported error it
returns the empty list, indistinguishable from an empty success; otherwise
it keeps the rows whose raw field count matches the 18 requested fields.
(The per-row dict construction renames `code` to `symbol` and parses the
numeric columns; it is row-for-row and does not affect row count or
emptiness, and IEEE-754 float parsing is outside this embedding, so rows
are modelled as their raw field lists.) -/
def _query_daily_bars (rs : BsResultSet) : List (List String) :=
  if rs.errorCode ≠ "0" then []
  else rs.rows.filter (fun raw => raw.length = 18)

/- ----------------------------------------------------------------------
   Index-history pass (CNBaoStockDaemon._build_index_history, lines 674-728)
   and the daemon main loop (run, lines 614-649)
   ---------------------------------------------------------------------- -/

/-- `_INDEXES`: the two tracked indexes, in dict iteration (insertion)
order. -/
def _INDEXES : List String := ["csi300", "csi500"]

/-- The resume cursor: the day after the `.scan-progress` marker when
present, else the configured history floor `start_date`. -/
def scanStartFrom (progress : Option Nat) (startDate : Nat) : Nat :=
  match progress with
  | some p => p + 1
  | none => startDate

/-- The work items of one index-history pass: for each trading day (in
calendar order), for each tracked index, one `(date, index)` item when that
day's partition file does not yet exist. -/
def buildIndexWork (tradingDays : List Nat) (fileExists : Nat → String → Bool) :
    List (Nat × String) :=
  tradingDays.flatMap
    (fun d => (_INDEXES.filter (fun ix => ! fileExists d ix)).map (fun ix => (d, ix)))

/-- The pool-consumption loop checks the shutdown flag once per consumed
result (at most `n` checks); the pass is cancelled iff some check observes
the flag. -/
def poolCancelled (n : Nat) (shutdownAt : Nat → Bool) : Bool :=
  (List.range n).any shutdownAt

/-- `CNBaoStockDaemon._build_index_history`: resume from the marker, query
the trading calendar over `[scan_start, today]` (an error propagates as an
uncaught exception), enumerate missing `(day, index)` files, run the pool,
and write `.scan-progress := trading_days[-1]` when there was nothing to
do, or when the pool loop was not cancelled.  Result: the work list and
`some markerValue` exactly when the marker file is written. -/
def _build_index_history (progress : Option Nat) (startDate today : Nat)
    (calQuery : Nat → Nat → Except String (List Nat))
    (fileExists : Nat → String → Bool)
    (shutdownAt : Nat → Bool) :
    Except String (List (Nat × String) × Option Nat) :=
  let scan_start := scanStartFrom progress startDate
  if today < scan_start then Except.ok ([], none)
  else
    match calQuery scan_start today with
    | Except.error msg => Except.error msg
    | Except.ok trading_days =>
        let work := buildIndexWork trading_days fileExists
        if work.isEmpty then Except.ok (work, trading_days.getLast?)
        else if poolCancelled work.length shutdownAt then Except.ok (work, none)
        else Except.ok (work, trading_days.getLast?)

/-- The `.scan-progress` marker file contents after one pass: unchanged
when the pass aborts with an exception or finishes without writing. -/
def markerAfterPass (progress : Option Nat) (startDate today : Nat)
    (calQuery : Nat → Nat → Except String (List Nat))
    (fileExists : Nat → String → Bool)
    (shutdownAt : Nat → Bool) : Option Nat :=
  match _build_index_history progress startDate today calQuery fileExists shutdownAt with
  | Except.ok (_, some v) => some v
  | Except.ok (_, none) => progress
  | Except.error _ => progress

/-- One iteration of `CNBaoStockDaemon.run` in the state where shutdown has
not been signalled and the index history is incomplete: `run` calls
`_build_index_history` with no exception handler (its `try` has only a
`finally` for logout), so an `Except.error` propagates out of the loop and
the daemon process terminates. -/
def runIterIndexPhase (progress : Option Nat) (startDate today : Nat)
    (calQuery : Nat → Nat → Except String (List Nat))
    (fileExists : Nat → String → Bool)
    (shutdownAt : Nat → Bool) : Except String (Option Nat) :=
  match _build_index_history progress startDate today calQuery fileExists shutdownAt with
  | Except.ok (_, m) => Except.ok m
  | Except.error msg => Except.error msg

theorem mem_buildIndexWork (days : List Nat) (fileExists : Nat → String → Bool)
    (d : Nat) (ix : String) :
    (d, ix) ∈ buildIndexWork days fileExists ↔
      d ∈ days ∧ ix ∈ _INDEXES ∧ fileExists d ix = false := by
  unfold buildIndexWork
  rw [List.mem_flatMap]
  constructor
  · rintro ⟨d', hd', hmem⟩
    rcases List.mem_map.mp hmem with ⟨ix', hix', heq⟩
    obtain ⟨rfl, rfl⟩ : d' = d ∧ ix' = ix := by
      rcases Prod.mk.injEq .. ▸ heq with ⟨h1, h2⟩
      exact ⟨h1, h2⟩
    rcases List.mem_filter.mp hix' with ⟨hixm, hfil⟩
    exact ⟨hd', hixm, by simpa using hfil⟩
  · rintro ⟨hd, hix, hfe⟩
    exact ⟨d, hd, List.mem_map.mpr ⟨ix, List.mem_filter.mpr ⟨hix, by simp [hfe]⟩, rfl⟩⟩

theorem buildIndexWork_nodup (days : List Nat) (fileExists : Nat → String → Bool)
    (hnd : days.Nodup) : (buildIndexWork days fileExists).Nodup := by
  unfold buildIndexWork
  rw [List.nodup_flatMap]
  constructor
  · intro d _
    refine List.Nodup.map ?_ (List.Nodup.filter _ (by decide))
    intro a b hab
    exact congrArg Prod.snd hab
  · refine hnd.imp ?_
    intro d1 d2 hne
    intro x hx1 hx2
    rcases List.mem_map.mp hx1 with ⟨_, _, rfl⟩
    rcases List.mem_map.mp hx2 with ⟨_, _, heq⟩
    exact hne (congrArg Prod.fst heq).symm

/-- C3 (counterexample): with the shutdown flag never set, a
trading-calendar query failure propagates out of `CNBaoStockDaemon.run`
(whose `try` block has only a `finally`, no handler) — the daemon process
exits on this partial failure, not only on a shutdown signal. -/
theorem calendar_failure_exits_daemon :
    runIterIndexPhase none 20240101 20240105
      (fun _ _ => Except.error "trade calendar query failed")
      (fun _ _ => false) (fun _ => false)
      = Except.error "trade calendar query failed" := rfl

/-- C3 (amended): a trading-calendar query failure aborts the current
index-history pass with the `.scan-progress` marker untouched, so a later
pass resumes from the same cursor; but the raised `RuntimeError` escapes
`run` uncaught, so the daemon process terminates on this failure (after
the `finally` logout) even though no shutdown signal arrived. -/
theorem calendar_failure_aborts_pass_marker_untouched
    (progress : Option Nat) (startDate today : Nat)
    (calQuery : Nat → Nat → Except String (List Nat))
    (fileExists : Nat → String → Bool) (shutdownAt : Nat → Bool) (msg : String)
    (hcal : calQuery (scanStartFrom progress startDate) today = Except.error msg)
    (hrun : ¬ (today < scanStartFrom progress startDate)) :
    markerAfterPass progress startDate today calQuery fileExists shutdownAt = progress
    ∧ runIterIndexPhase progress startDate today calQuery fileExists shutdownAt
        = Except.error msg := by
  have hb : _build_index_history progress startDate today calQuery fileExists shutdownAt
      = Except.error msg := by
    unfold _build_index_history
    rw [if_neg hrun, hcal]
  constructor
  · unfold markerAfterPass
    rw [hb]
  · unfold runIterIndexPhase
    rw [hb]

/-- C3 witness: a concrete failing calendar query leaves a present marker
unchanged and makes the run-loop iteration return the error. -/
theorem calendar_failure_marker_untouched_witness :
    markerAfterPass (some 20240102) 20240101 20240105
      (fun _ _ => Except.error "boom") (fun _ _ => false) (fun _ => false)
      = some 20240102
    ∧ runIterIndexPhase (some 20240102) 20240101 20240105
      (fun _ _ => Except.error "boom") (fun _ _ => false) (fun _ => false)
      = Except.error "boom" :=
  calendar_failure_aborts_pass_marker_untouched (some 20240102) 20240101 20240105
    (fun _ _ => Except.error "boom") (fun _ _ => false) (fun _ => false) "boom"
    rfl (by decide)

/-- C4 (counterexample): the pass queries the calendar with
`end = date.today()`, not yesterday: with today = 2024-01-05 a trading day
and its partition files missing, the pass generates items dated
2024-01-05, later than yesterday (2024-01-04). -/
theorem index_history_generates_today_item :
    _build_index_history none 20240105 20240105
        (fun _ _ => Except.ok [20240105]) (fun _ _ => false) (fun _ => false)
      = Except.ok ([(20240105, "csi300"), (20240105, "csi500")], some 20240105)
    ∧ 20240105 - 1 < 20240105 := by
  constructor
  · rfl
  · decide

/-- C4 (amended): when the calendar query over `[resume-cursor, today]`
succeeds with days inside that range, the pass generates exactly one work
item per (trading day, tracked index) pair whose partition file does not
yet exist, and no generated item's date is later than **today** (items
dated today itself are possible). -/
theorem index_history_work_enumeration
    (progress : Option Nat) (startDate today : Nat)
    (calQuery : Nat → Nat → Except String (List Nat))
    (fileExists : Nat → String → Bool) (shutdownAt : Nat → Bool)
    (days : List Nat)
    (hcal : calQuery (scanStartFrom progress startDate) today = Except.ok days)
    (hrun : ¬ (today < scanStartFrom progress startDate))
    (hub : ∀ d ∈ days, d ≤ today) (hnd : days.Nodup) :
    (∃ m, _build_index_history progress startDate today calQuery fileExists shutdownAt
        = Except.ok (buildIndexWork days fileExists, m))
    ∧ (∀ d ix, (d, ix) ∈ buildIndexWork days fileExists ↔
        d ∈ days ∧ ix ∈ _INDEXES ∧ fileExists d ix = false)
    ∧ (buildIndexWork days fileExists).Nodup
    ∧ (∀ p ∈ buildIndexWork days fileExists, p.1 ≤ today) := by
  refine ⟨?_, fun d ix => mem_buildIndexWork days fileExists d ix,
    buildIndexWork_nodup days fileExists hnd, ?_⟩
  · unfold _build_index_history
    rw [if_neg hrun, hcal]
    by_cases h1 : (buildIndexWork days fileExists).isEmpty
    · exact ⟨days.getLast?, by simp [h1]⟩
    · by_cases h2 : poolCancelled (buildIndexWork days fileExists).length shutdownAt
      · exact ⟨none, by simp [h1, h2]⟩
      · exact ⟨days.getLast?, by simp [h1, h2]⟩
  · rintro ⟨d, ix⟩ hp
    exact hub d ((mem_buildIndexWork days fileExists d ix).mp hp).1

/-- C4 witness: resuming from marker 2024-01-02 with two missing trading
days, the item for (2024-01-03, csi300) is enumerated and is within the
`today` bound. -/
theorem index_history_work_enumeration_witness :
    (20240103, "csi300") ∈ buildIndexWork [20240103, 20240104] (fun _ _ => false)
    ∧ (20240103 : Nat) ≤ 20240105 := by
  have h := index_history_work_enumeration (some 20240102) 20230101 20240105
    (fun _ _ => Except.ok [20240103, 20240104]) (fun _ _ => false) (fun _ => false)
    [20240103, 20240104] rfl (by decide) (by decide) (by decide)
  have hmem : (20240103, "csi300") ∈ buildIndexWork [20240103, 20240104] (fun _ _ => false) :=
    (h.2.1 20240103 "csi300").mpr ⟨by decide, by decide, rfl⟩
  exact ⟨hmem, h.2.2.2 _ hmem⟩

/-- C5: with marker `D` present, the pass resumes at `D + 1`; provided the
calendar respects the requested range, every generated work item is dated
strictly after `D` — no date in `[floor, D]` is re-included. -/
theorem index_history_resumes_after_marker
    (D startDate today : Nat)
    (calQuery : Nat → Nat → Except String (List Nat))
    (fileExists : Nat → String → Bool) (shutdownAt : Nat → Bool)
    (days : List Nat) (w : List (Nat × String)) (m : Option Nat)
    (hcal : calQuery (D + 1) today = Except.ok days)
    (hlow : ∀ d ∈ days, D + 1 ≤ d)
    (hrun : _build_index_history (some D) startDate today calQuery fileExists shutdownAt
        = Except.ok (w, m)) :
    ∀ p ∈ w, D < p.1 := by
  intro p hp
  unfold _build_index_history at hrun
  by_cases ht : today < scanStartFrom (some D) startDate
  · rw [if_pos ht] at hrun
    have hw : w = [] := by
      have h := Except.ok.inj hrun
      exact (congrArg Prod.fst h).symm
    rw [hw] at hp
    simp at hp
  · rw [if_neg ht] at hrun
    have hscan : scanStartFrom (some D) startDate = D + 1 := rfl
    rw [hscan] at hrun
    rw [hcal] at hrun
    have hw : w = buildIndexWork days fileExists := by
      by_cases h1 : (buildIndexWork days fileExists).isEmpty
      · simp only [h1, if_true] at hrun
        exact (congrArg Prod.fst (Except.ok.inj hrun)).symm
      · by_cases h2 : poolCancelled (buildIndexWork days fileExists).length shutdownAt
        · simp only [h1, h2, if_true, Bool.false_eq_true, if_false] at hrun
          exact (congrArg Prod.fst (Except.ok.inj hrun)).symm
        · simp only [h1, h2, Bool.false_eq_true, if_false] at hrun
          exact (congrArg Prod.fst (Except.ok.inj hrun)).symm
    subst hw
    rcases p with ⟨d, ix⟩
    have hmem := (mem_buildIndexWork days fileExists d ix).mp hp
    have := hlow d hmem.1
    omega

/-- C5 witness: marker 2024-01-02, calendar `[2024-01-03]`; the generated
item `(2024-01-03, csi300)` is dated strictly after the marker. -/
theorem index_history_resumes_after_marker_witness :
    20240102 < ((20240103, "csi300") : Nat × String).1 :=
  index_history_resumes_after_marker 20240102 20230101 20240105
    (fun _ _ => Except.ok [20240103]) (fun _ _ => false) (fun _ => false)
    [20240103] [(20240103, "csi300"), (20240103, "csi500")] (some 20240103)
    rfl (by decide) rfl (20240103, "csi300") (by decide)

/- ----------------------------------------------------------------------
   C7: failure vs empty success in adapter calls
   ---------------------------------------------------------------------- -/

/-- C7 (counterexample): a source-reported failure (error code "10001",
with rows present at the source) and an empty success (error code "0",
zero rows) produce the identical value `[]` from the daily-bar query and
from the constituent query — no caller can tell from the result which of
the two occurred. -/
theorem query_failure_indistinguishable :
    _query_daily_bars ⟨"10001", [List.replicate 18 "x"]⟩ = _query_daily_bars ⟨"0", []⟩
    ∧ _query_index_constituents ⟨"10001", [["d", "sh.600000", "name"]]⟩ =
        _query_index_constituents ⟨"0", []⟩ := by
  constructor <;> rfl

/-- C7 (amended): constituent-query and daily-bar-query failures are
collapsed to the empty list, indistinguishable from an empty success; only
the trading-calendar query reports failure distinguishably, by raising
(`Except.error`). -/
theorem query_error_reporting (rs : BsResultSet) (h : rs.errorCode ≠ "0") :
    _query_daily_bars rs = []
    ∧ _query_index_constituents rs = []
    ∧ _query_trading_days rs = Except.error "trade calendar query failed" := by
  refine ⟨?_, ?_, ?_⟩ <;>
    simp [_query_daily_bars, _query_index_constituents, _query_trading_days, h]

/-- C7 witness: a concrete failing result set yields `[]` from both list
queries and an error from the calendar query. -/
theorem query_error_reporting_witness :
    _query_daily_bars ⟨"10001", [List.replicate 18 "x"]⟩ = []
    ∧ _query_index_constituents ⟨"10001", [List.replicate 18 "x"]⟩ = []
    ∧ _query_trading_days ⟨"10001", [List.replicate 18 "x"]⟩ =
        Except.error "trade calendar query failed" :=
  query_error_reporting ⟨"10001", [List.replicate 18 "x"]⟩ (by decide)

/- ----------------------------------------------------------------------
   C6: markers advance only on uncancelled completion
   (_build_index_history lines 712-728, _run_daily_update lines 938-999)
   ---------------------------------------------------------------------- -/

/-- Clock advance of one pool-consumption loop of `_run_daily_update`: up
to `n` results are consumed; before using each, the shutdown flag is read
once (at the current clock tick); a set flag breaks the loop.  Returns the
clock after the loop. -/
def poolLoopClock (flag : Nat → Bool) : Nat → Nat → Nat
  | t, 0 => t
  | t, Nat.succ n => if flag t then t + 1 else poolLoopClock flag (t + 1) n

/-- `CNBaoStockDaemon._run_daily_update`, reduced to its shutdown-flag
reads (one per tick of a global clock) and the final marker write.  Checks
in order: one per tracked index in the constituent loop (a set flag
returns immediately), one guarding the new-symbol backfill pool (`nNew`
in-pool checks), one guarding the current-constituent update pool (`nCur`
in-pool checks), and the final `if not _shutdown` gate before
`.last-completed` is written.  Returns (marker written?, final clock). -/
def dailyClock1 (flag : Nat → Bool) (hasNew : Bool) (nNew : Nat) : Nat :=
  if hasNew then (if flag 2 then 2 + 1 else poolLoopClock flag (2 + 1) nNew) else 2

def dailyClock2 (flag : Nat → Bool) (hasNew : Bool) (nNew : Nat)
    (hasCur : Bool) (nCur : Nat) : Nat :=
  let t1 := dailyClock1 flag hasNew nNew
  if hasCur then (if flag t1 then t1 + 1 else poolLoopClock flag (t1 + 1) nCur) else t1

def _run_daily_update (flag : Nat → Bool) (hasNew : Bool) (nNew : Nat)
    (hasCur : Bool) (nCur : Nat) : Bool × Nat :=
  if flag 0 then (false, 1)
  else if flag 1 then (false, 2)
  else (! flag (dailyClock2 flag hasNew nNew hasCur nCur),
        dailyClock2 flag hasNew nNew hasCur nCur + 1)

theorem poolLoopClock_ge (flag : Nat → Bool) (t n : Nat) :
    t ≤ poolLoopClock flag t n := by
  induction n generalizing t with
  | zero => exact Nat.le_refl t
  | succ n ih =>
      simp only [poolLoopClock]
      by_cases h : flag t = true
      · simp [h]
      · simp only [h, Bool.false_eq_true, if_false]
        exact Nat.le_trans (Nat.le_succ t) (ih (t + 1))

/-- C6: markers advance only on uncancelled completion.  Index-history
pass: when the pool loop over a nonempty work list observes the shutdown
flag (the pass is cancelled), `.scan-progress` is not written.  Daily
update: with a set-once (monotone) shutdown flag, if the flag is set at
any clock tick before the run finishes, the final `if not _shutdown` gate
fails and `.last-completed` is not written. -/
theorem markers_advance_only_on_completion
    (flagIdx flagDaily : Nat → Bool)
    (progress : Option Nat) (startDate today : Nat)
    (calQuery : Nat → Nat → Except String (List Nat))
    (fileExists : Nat → String → Bool) (days : List Nat)
    (hasNew : Bool) (nNew : Nat) (hasCur : Bool) (nCur : Nat)
    (hmono : ∀ i j, i ≤ j → flagDaily i = true → flagDaily j = true) :
    ((calQuery (scanStartFrom progress startDate) today = Except.ok days) →
      ¬ (today < scanStartFrom progress startDate) →
      buildIndexWork days fileExists ≠ [] →
      (∃ k, k < (buildIndexWork days fileExists).length ∧ flagIdx k = true) →
      _build_index_history progress startDate today calQuery fileExists flagIdx
        = Except.ok (buildIndexWork days fileExists, none))
    ∧ ((∃ u, u < (_run_daily_update flagDaily hasNew nNew hasCur nCur).2
          ∧ flagDaily u = true) →
      (_run_daily_update flagDaily hasNew nNew hasCur nCur).1 = false) := by
  constructor
  · intro hcal hrun hne hcanc
    unfold _build_index_history
    rw [if_neg hrun, hcal]
    have hempty : (buildIndexWork days fileExists).isEmpty = false := by
      cases hw : buildIndexWork days fileExists with
      | nil => exact absurd hw hne
      | cons a l => rfl
    have hcanc' : poolCancelled (buildIndexWork days fileExists).length flagIdx = true := by
      rcases hcanc with ⟨k, hk, hfk⟩
      unfold poolCancelled
      rw [List.any_eq_true]
      exact ⟨k, List.mem_range.mpr hk, hfk⟩
    simp [hempty, hcanc']
  · intro hex
    rcases hex with ⟨u, hu, hfu⟩
    by_cases h0 : flagDaily 0 = true
    · simp [_run_daily_update, h0]
    · by_cases h1 : flagDaily 1 = true
      · simp [_run_daily_update, h0, h1]
      · have hu' : u < dailyClock2 flagDaily hasNew nNew hasCur nCur + 1 := by
          unfold _run_daily_update at hu
          simpa [h0, h1] using hu
        have hfin : flagDaily (dailyClock2 flagDaily hasNew nNew hasCur nCur) = true :=
          hmono u _ (Nat.lt_succ_iff.mp hu') hfu
        simp [_run_daily_update, h0, h1, hfin]

/-- C6 witness: a flag raised from tick 0 onward cancels a concrete
two-item index pass (no `.scan-progress` write) and suppresses the
`.last-completed` write of a concrete daily update. -/
theorem markers_advance_only_on_completion_witness :
    _build_index_history none 20240101 20240105
        (fun _ _ => Except.ok [20240103]) (fun _ _ => false) (fun _ => true)
      = Except.ok (buildIndexWork [20240103] (fun _ _ => false), none)
    ∧ (_run_daily_update (fun _ => true) true 2 true 3).1 = false := by
  have h := markers_advance_only_on_completion (fun _ => true) (fun _ => true)
    none 20240101 20240105 (fun _ _ => Except.ok [20240103]) (fun _ _ => false)
    [20240103] true 2 true 3 (fun _ _ _ hf => hf)
  exact ⟨h.1 rfl (by decide) (by decide) ⟨0, by decide, rfl⟩, h.2 ⟨0, by decide, rfl⟩⟩

/- ----------------------------------------------------------------------
   Store model for daily bars: per-symbol partition directories
   (one parquet file per year: $DATA_1/cn/daily/<SYMBOL>/YYYY.parquet)
   ---------------------------------------------------------------------- -/

/-- A symbol's partition directory: the files present on disk, as
(year from the `YYYY.parquet` filename, rows stored in the file). -/
abbrev SymDir : Type := List (Nat × List Bar)

/-- The Python slice `r["date"][:4]` — the year of an encoded ISO date. -/
def yearOf (d : Nat) : Nat := d / 10000

/-- Python `max` over a list of dates (`None` when the list is empty). -/
def listMax : List Nat → Option Nat
  | [] => none
  | d :: ds =>
      match listMax ds with
      | none => some d
      | some m => some (if d ≤ m then m else d)

/-- The scan loop of `_read_latest_bar_date` over files already in
descending filename order: return the max date of the first file holding
any dates. -/
def latestScan : List (Nat × List Bar) → Option Nat
  | [] => none
  | (_, rows) :: rest =>
      match listMax (rows.map Bar.date) with
      | some m => some m
      | none => latestScan rest

/-- `_read_latest_bar_date` (lines 440-454): scan the symbol's partition
files in descending filename order (`sorted(sym_dir.glob("*.parquet"),
reverse=True)`; 4-digit year filenames sort numerically) and return the
max date of the first non-empty file, `None` if every file is empty. -/
def _read_latest_bar_date (dir : SymDir) : Option Nat :=
  latestScan (stableSort (fun x a : Nat × List Bar => decide (a.1 < x.1)) dir)

/-- Read a partition file's rows; `[]` when the file does not exist
(`existing_rows = []` unless `path.exists()`). -/
def dirRead (dir : SymDir) (y : Nat) : List Bar :=
  match dir with
  | [] => []
  | p :: rest => if p.1 = y then p.2 else dirRead rest y

/-- Rewrite (or create) the year file with the given full contents. -/
def dirWrite (dir : SymDir) (y : Nat) (rows : List Bar) : SymDir :=
  match dir with
  | [] => [(y, rows)]
  | p :: rest => if p.1 = y then (y, rows) :: rest else p :: dirWrite rest y rows

/-- The year keys of `by_year` in first-appearance order (Python dict
`setdefault` grouping in `_task_fetch_bars`). -/
def groupYearsOrder (rows : List Bar) : List Nat :=
  rows.foldl (fun acc r => if yearOf r.date ∈ acc then acc else acc ++ [yearOf r.date]) []

/-- `_task_fetch_bars` (lines 301-320) given the already-fetched `rows` for
one symbol: if no rows came back (query failure or genuinely no data) the
task returns `(symbol, 0)` and writes nothing; otherwise it groups rows by
year and merge-writes each year file, returning the row count. -/
def _task_fetch_bars (dir : SymDir) (rows : List Bar) : SymDir × Nat :=
  if rows.isEmpty then (dir, 0)
  else
    ((groupYearsOrder rows).foldl
      (fun d y =>
        dirWrite d y
          (_write_bars_parquet (dirRead d y)
            (rows.filter (fun r => decide (yearOf r.date = y)))))
      dir,
     rows.length)

/-- The work enumeration of `CNBaoStockDaemon._bar_backfill`
(lines 734-757): for each symbol, skip when the latest stored date is
current (`latest >= today`); else span `[latest+1, today]`, or
`[start_date, today]` when nothing is stored; skip when the span start is
past today. -/
def _bar_backfill_work (symbols : List String) (store : String → SymDir)
    (startDate today : Nat) : List (String × Nat × Nat) :=
  symbols.filterMap (fun symbol =>
    match _read_latest_bar_date (store symbol) with
    | some latest =>
        if today ≤ latest then none
        else if today < latest + 1 then none
        else some (symbol, latest + 1, today)
    | none =>
        if today < startDate then none else some (symbol, startDate, today))

/-- Pointwise store update after one task writes one symbol's directory. -/
def updateStore (store : String → SymDir) (sym : String) (dir : SymDir) :
    String → SymDir :=
  fun s => if s = sym then dir else store s

theorem listMax_eq_none_iff (l : List Nat) : listMax l = none ↔ l = [] := by
  cases l with
  | nil => simp [listMax]
  | cons d ds =>
      simp only [listMax]
      cases listMax ds <;> simp

theorem listMax_spec (l : List Nat) (m : Nat) (h : listMax l = some m) :
    m ∈ l ∧ ∀ x ∈ l, x ≤ m := by
  induction l generalizing m with
  | nil => simp [listMax] at h
  | cons d ds ih =>
      simp only [listMax] at h
      cases hds : listMax ds with
      | none =>
          rw [hds] at h
          obtain rfl : d = m := by simpa using h
          have : ds = [] := (listMax_eq_none_iff ds).mp hds
          subst this
          simp
      | some m' =>
          rw [hds] at h
          rcases ih m' hds with ⟨hmem, hub⟩
          by_cases hdm : d ≤ m'
          · obtain rfl : m' = m := by simpa [hdm] using h
            refine ⟨List.mem_cons_of_mem d hmem, ?_⟩
            intro x hx
            rcases List.mem_cons.mp hx with rfl | hx'
            · exact hdm
            · exact hub x hx'
          · obtain rfl : d = m := by simpa [hdm] using h
            refine ⟨List.mem_cons_self d ds, ?_⟩
            intro x hx
            rcases List.mem_cons.mp hx with rfl | hx'
            · exact Nat.le_refl x
            · exact Nat.le_trans (hub x hx') (Nat.le_of_not_le hdm)

theorem listMax_eq_some (l : List Nat) (m : Nat) (hm : m ∈ l)
    (hub : ∀ x ∈ l, x ≤ m) : listMax l = some m := by
  cases h : listMax l with
  | none =>
      rw [listMax_eq_none_iff] at h
      subst h
      simp at hm
  | some m' =>
      rcases listMax_spec l m' h with ⟨hmem, hub'⟩
      have h1 : m ≤ m' := hub' m hm
      have h2 : m' ≤ m := hub m' hmem
      rw [Nat.le_antisymm h1 h2]

theorem listMax_congr (l₁ l₂ : List Nat) (h : ∀ x, x ∈ l₁ ↔ x ∈ l₂) :
    listMax l₁ = listMax l₂ := by
  cases h1 : listMax l₁ with
  | none =>
      rw [listMax_eq_none_iff] at h1
      subst h1
      cases h2 : listMax l₂ with
      | none => rfl
      | some m =>
          rcases listMax_spec l₂ m h2 with ⟨hmem, _⟩
          rw [← h] at hmem
          simp at hmem
  | some m =>
      rcases listMax_spec l₁ m h1 with ⟨hmem, hub⟩
      exact (listMax_eq_some l₂ m ((h m).mp hmem)
        (fun x hx => hub x ((h x).mpr hx))).symm

/-- On a directory sorted descending by filename year, with unique years
and year-consistent file contents, short-circuiting at the first non-empty
file returns the global maximum date. -/
theorem latestScan_eq (S : List (Nat × List Bar))
    (hsorted : List.Pairwise (fun p q : Nat × List Bar => q.1 ≤ p.1) S)
    (hnd : (S.map Prod.fst).Nodup)
    (hyear : ∀ p ∈ S, ∀ r ∈ p.2, yearOf r.date = p.1) :
    latestScan S = listMax (S.flatMap (fun p => p.2.map Bar.date)) := by
  induction S with
  | nil => rfl
  | cons hd rest ih =>
      rcases hd with ⟨y, rows⟩
      rcases List.pairwise_cons.mp hsorted with ⟨hhd, hrest⟩
      have hnd' : y ∉ rest.map Prod.fst ∧ (rest.map Prod.fst).Nodup := by
        rw [List.map_cons, List.nodup_cons] at hnd
        exact hnd
      simp only [latestScan, List.flatMap_cons]
      cases hm : listMax (rows.map Bar.date) with
      | none =>
          have : rows.map Bar.date = [] := (listMax_eq_none_iff _).mp hm
          rw [this, List.nil_append]
          exact ih hrest hnd'.2
            (fun p hp => hyear p (List.mem_cons_of_mem _ hp))
      | some m =>
          rcases listMax_spec _ m hm with ⟨hmem, hub⟩
          have hym : yearOf m = y := by
            rcases List.mem_map.mp hmem with ⟨r, hr, hrm⟩
            rw [← hrm]
            exact hyear ⟨y, rows⟩ (List.mem_cons_self _ _) r hr
          refine (listMax_eq_some _ m (List.mem_append.mpr (Or.inl hmem)) ?_).symm
          intro x hx
          rcases List.mem_append.mp hx with hx1 | hx2
          · exact hub x hx1
          · rcases List.mem_flatMap.mp hx2 with ⟨q, hq, hxq⟩
            have hyx : yearOf x = q.1 := by
              rcases List.mem_map.mp hxq with ⟨r, hr, hrx⟩
              rw [← hrx]
              exact hyear q (List.mem_cons_of_mem _ hq) r hr
            have hlt : q.1 < y := by
              have hle : q.1 ≤ y := hhd q hq
              have hne : q.1 ≠ y := by
                intro hh
                exact hnd'.1 (hh ▸ List.mem_map_of_mem Prod.fst hq)
              omega
            unfold yearOf at hym hyx
            omega

/-- C9: for a symbol whose partition files each hold only dates of the
year in the file's name (and one file per year), `_read_latest_bar_date` —
scanning in descending filename order and short-circuiting at the first
non-empty partition — returns exactly the maximum date stored across all
of the symbol's partitions, `None` exactly when no partition holds any
date. -/
theorem _read_latest_bar_date_correct (dir : SymDir)
    (hyear : ∀ p ∈ dir, ∀ r ∈ p.2, yearOf r.date = p.1)
    (hnd : (dir.map Prod.fst).Nodup) :
    _read_latest_bar_date dir = listMax (dir.flatMap (fun p => p.2.map Bar.date))
    ∧ (_read_latest_bar_date dir = none ↔ ∀ p ∈ dir, p.2 = []) := by
  have hperm := perm_stableSort (fun x a : Nat × List Bar => decide (a.1 < x.1)) dir
  have hmain : _read_latest_bar_date dir
      = listMax (dir.flatMap (fun p => p.2.map Bar.date)) := by
    unfold _read_latest_bar_date
    rw [latestScan_eq _ ?_ ?_ ?_]
    · refine listMax_congr _ _ ?_
      intro x
      constructor
      · intro hx
        rcases List.mem_flatMap.mp hx with ⟨q, hq, hxq⟩
        exact List.mem_flatMap.mpr ⟨q, hperm.mem_iff.mp hq, hxq⟩
      · intro hx
        rcases List.mem_flatMap.mp hx with ⟨q, hq, hxq⟩
        exact List.mem_flatMap.mpr ⟨q, hperm.mem_iff.mpr hq, hxq⟩
    · refine pairwise_stableSort _ (fun p q : Nat × List Bar => q.1 ≤ p.1) ?_ ?_ ?_ dir
      · intro a b c hab hbc
        exact Nat.le_trans hbc hab
      · intro a x h
        have : ¬ (a.1 < x.1) := by simpa using h
        omega
      · intro a x h
        have : a.1 < x.1 := by simpa using h
        omega
    · exact ((hperm.map Prod.fst).nodup_iff).mpr hnd
    · intro p hp
      exact hyear p (hperm.mem_iff.mp hp)
  refine ⟨hmain, ?_⟩
  rw [hmain, listMax_eq_none_iff]
  constructor
  · intro h p hp
    have : p.2.map Bar.date = [] := by
      by_contra hne
      rcases List.exists_mem_of_ne_nil _ hne with ⟨x, hx⟩
      have : x ∈ dir.flatMap (fun p => p.2.map Bar.date) :=
        List.mem_flatMap.mpr ⟨p, hp, hx⟩
      rw [h] at this
      simp at this
    simpa using this
  · intro h
    rw [List.flatMap_eq_nil_iff]
    intro p hp
    rw [h p hp]
    rfl

/-- C9 witness: files 2023 (one date) and 2024 (two dates) — the scan
returns the overall maximum 2024-03-05. -/
theorem _read_latest_bar_date_correct_witness :
    _read_latest_bar_date
        [(2023, [Bar.mk "sh.600000" 20230601 0]),
         (2024, [Bar.mk "sh.600000" 20240104 0, Bar.mk "sh.600000" 20240305 0])]
      = listMax
        ([(2023, [Bar.mk "sh.600000" 20230601 0]),
          (2024, [Bar.mk "sh.600000" 20240104 0, Bar.mk "sh.600000" 20240305 0])].flatMap
          (fun p => p.2.map Bar.date)) :=
  (_read_latest_bar_date_correct _ (by decide) (by decide)).1

/- ----------------------------------------------------------------------
   C8: bar-backfill policy on zero-row fetches
   ---------------------------------------------------------------------- -/

/-- C8 (counterexample): a zero-row fetch (query failure or genuinely no
data) writes nothing, so the symbol's latest-date cursor is unchanged and
the very next enumeration pass re-includes the identical range
`[2024-01-01, 2024-01-05]` for the same symbol — the claimed cursor
advance does not happen. -/
theorem bar_backfill_zero_rows_reincluded :
    _task_fetch_bars [] [] = ([], 0)
    ∧ _bar_backfill_work ["sh.600000"] (fun _ => []) 20240101 20240105
        = [("sh.600000", 20240101, 20240105)]
    ∧ _bar_backfill_work ["sh.600000"]
        (updateStore (fun _ => []) "sh.600000" (_task_fetch_bars [] []).1)
        20240101 20240105
        = [("sh.600000", 20240101, 20240105)] :=
  ⟨rfl, rfl, rfl⟩

/-- C8 (amended): a zero-row fetch returns `(symbol, 0)` normally (no
exception, so the pool is not aborted) and writes nothing; the per-symbol
cursor — derived from stored data — is therefore unchanged, and a
subsequent `_bar_backfill` enumeration produces the identical work list,
re-including the same range.  (Only the fundamentals phase memoizes
attempted-and-empty symbols; daily-bar backfill has no such memo.) -/
theorem bar_backfill_zero_rows_no_advance
    (dir : SymDir) (symbols : List String) (store : String → SymDir)
    (sym : String) (startDate today : Nat) :
    _task_fetch_bars dir [] = (dir, 0)
    ∧ _bar_backfill_work symbols
        (updateStore store sym (_task_fetch_bars (store sym) []).1) startDate today
      = _bar_backfill_work symbols store startDate today := by
  constructor
  · rfl
  · have hstore : updateStore store sym (_task_fetch_bars (store sym) []).1 = store := by
      funext s
      unfold updateStore _task_fetch_bars
      by_cases h : s = sym <;> simp [h]
    rw [hstore]

/- ----------------------------------------------------------------------
   C10: fundamentals backfill memo (.tried-empty)
   (_task_fetch_fundamentals lines 344-399, _fundamentals_backfill 849-911)
   ---------------------------------------------------------------------- -/

/-- `FUNDAMENTAL_TYPES`: the six statement types, in order. -/
def FUNDAMENTAL_TYPES : List String :=
  ["profit", "operation", "growth", "balance", "cashflow", "dupont"]

/-- `target_quarters`: `(year, quarter)` for each year in
`[startYear, currentYear]`, quarters 1..4 for past years and
1..currentQuarter for the current year. -/
def targetQuarters (startYear curYear curQuarter : Nat) : List (Nat × Nat) :=
  (List.range' startYear (curYear + 1 - startYear)).flatMap (fun y =>
    (List.range' 1 (if y = curYear then curQuarter else 4)).map (fun q => (y, q)))

/-- Outcome of one per-quarter fundamentals query: a source-reported error
(`rs.error_code != "0"`, silently skipped with `continue`), a raised
exception (message appended to `errors`), or a success carrying the result
set's field list and raw rows. -/
inductive FundOutcome where
  | err : FundOutcome
  | exn : String → FundOutcome
  | ok : List String → List (List String) → FundOutcome

/-- The per-type collection loop of `_task_fetch_fundamentals` over the
missing quarters: accumulates (all_rows, errors, fields), where `fields`
is captured from the first successful result set and later rows are kept
only when their raw length matches it.  (Row dicts keep raw field lists;
the float parsing of metric columns is value-level only and outside this
embedding.) -/
def fundTypeCollect (query : Nat × Nat → FundOutcome)
    (missing : List (Nat × Nat)) :
    List (List String) × List String × Option (List String) :=
  missing.foldl
    (fun (st : List (List String) × List String × Option (List String)) yq =>
      match query yq with
      | FundOutcome.err => st
      | FundOutcome.exn m => (st.1, st.2.1 ++ [m], st.2.2)
      | FundOutcome.ok fields rows =>
          let fl := st.2.2.getD fields
          (st.1 ++ rows.filter (fun raw => decide (raw.length = fl.length)),
           st.2.1, some fl))
    ([], [], none)

/-- One iteration of the `for ftype, query_fn_name in FUNDAMENTAL_TYPES`
loop: skip when no quarter is missing; otherwise collect, and add to
`total_rows` only when rows were collected and fields are known
(`if all_rows and fields:`). -/
def missingQuarters (existing : String → List (Nat × Nat))
    (startYear curYear curQuarter : Nat) (ftype : String) : List (Nat × Nat) :=
  (targetQuarters startYear curYear curQuarter).filter
    (fun yq => decide (yq ∉ existing ftype))

def fundTypeStep (existing : String → List (Nat × Nat))
    (query : String → Nat × Nat → FundOutcome)
    (startYear curYear curQuarter : Nat)
    (acc : Nat × List String) (ftype : String) : Nat × List String :=
  if (missingQuarters existing startYear curYear curQuarter ftype).isEmpty then acc
  else
    let res := fundTypeCollect (query ftype)
      (missingQuarters existing startYear curYear curQuarter ftype)
    match res.2.2 with
    | some _ =>
        if res.1.isEmpty then (acc.1, acc.2 ++ res.2.1)
        else (acc.1 + res.1.length, acc.2 ++ res.2.1)
    | none => (acc.1, acc.2 ++ res.2.1)

/-- `_task_fetch_fundamentals` for one symbol: `(total_rows, errors)` over
the six statement types (`existing` abstracts `_get_existing_quarters` of
the symbol's per-type parquet file). -/
def _task_fetch_fundamentals (existing : String → List (Nat × Nat))
    (query : String → Nat × Nat → FundOutcome)
    (startYear curYear curQuarter : Nat) : Nat × List String :=
  FUNDAMENTAL_TYPES.foldl (fundTypeStep existing query startYear curYear curQuarter) (0, [])

/-- The result-consumption loop of `_fundamentals_backfill`: a symbol whose
task reported zero total rows is added to the `tried_empty` memo — whether
the zeros came from confirmed-empty data or from query errors. -/
def fundamentalsMemoUpdate (results : List (String × Nat × List String))
    (triedEmpty : List String) : List String :=
  results.foldl
    (fun memo r =>
      if r.2.1 > 0 then memo
      else if r.1 ∈ memo then memo else memo ++ [r.1])
    triedEmpty

/-- The work enumeration of `_fundamentals_backfill`: memoed symbols are
skipped outright; of the rest, a symbol is work iff some statement type is
missing some target quarter. -/
def _fundamentals_backfill_work (symbols triedEmpty : List String)
    (existing : String → String → List (Nat × Nat))
    (startYear curYear curQuarter : Nat) : List String :=
  symbols.filter (fun sym =>
    decide (sym ∉ triedEmpty) &&
    FUNDAMENTAL_TYPES.any (fun ftype =>
      (targetQuarters startYear curYear curQuarter).any
        (fun yq => decide (yq ∉ existing sym ftype))))

theorem fundTypeCollect_err (query : Nat × Nat → FundOutcome)
    (missing : List (Nat × Nat)) (herr : ∀ yq, query yq = FundOutcome.err) :
    fundTypeCollect query missing = ([], [], none) := by
  unfold fundTypeCollect
  have hgen : ∀ (st : List (List String) × List String × Option (List String)),
      missing.foldl
        (fun st yq =>
          match query yq with
          | FundOutcome.err => st
          | FundOutcome.exn m => (st.1, st.2.1 ++ [m], st.2.2)
          | FundOutcome.ok fields rows =>
              let fl := st.2.2.getD fields
              (st.1 ++ rows.filter (fun raw => decide (raw.length = fl.length)),
               st.2.1, some fl)) st = st := by
    induction missing with
    | nil => intro st; rfl
    | cons yq rest ih =>
        intro st
        rw [List.foldl_cons, herr yq]
        exact ih st
  exact hgen ([], [], none)

/-- C10: if every per-quarter query for a symbol reports a source error
(no quarter confirmed empty by data), the task still reports zero total
rows; the consumption loop then adds the symbol to the `.tried-empty`
memo, and every subsequent fundamentals enumeration pass excludes the
symbol while it stays in the memo — a symbol hit only by transient source
failures is permanently excluded until the memo file is cleared
externally. -/
theorem fundamentals_error_only_symbol_memoized
    (existing : String → List (Nat × Nat))
    (query : String → Nat × Nat → FundOutcome)
    (startYear curYear curQuarter : Nat)
    (sym : String) (memo : List String)
    (herr : ∀ ftype yq, query ftype yq = FundOutcome.err) :
    (_task_fetch_fundamentals existing query startYear curYear curQuarter).1 = 0
    ∧ sym ∈ fundamentalsMemoUpdate
        [(sym, _task_fetch_fundamentals existing query startYear curYear curQuarter)] memo
    ∧ (∀ symbols existing2 sy cy cq,
        sym ∉ _fundamentals_backfill_work symbols
          (fundamentalsMemoUpdate
            [(sym, _task_fetch_fundamentals existing query startYear curYear curQuarter)]
            memo)
          existing2 sy cy cq) := by
  have hstep : ∀ acc ftype,
      (fundTypeStep existing query startYear curYear curQuarter acc ftype).1 = acc.1 := by
    intro acc ftype
    unfold fundTypeStep
    by_cases hmiss :
        (missingQuarters existing startYear curYear curQuarter ftype).isEmpty = true
    · rw [if_pos hmiss]
    · rw [if_neg hmiss, fundTypeCollect_err (query ftype) _ (herr ftype)]
  have hz : (_task_fetch_fundamentals existing query startYear curYear curQuarter).1 = 0 := by
    unfold _task_fetch_fundamentals
    have hfold : ∀ (l : List String) (acc : Nat × List String),
        (l.foldl (fundTypeStep existing query startYear curYear curQuarter) acc).1 = acc.1 := by
      intro l
      induction l with
      | nil => intro acc; rfl
      | cons f fs ih =>
          intro acc
          rw [List.foldl_cons, ih]
          exact hstep acc f
    exact hfold FUNDAMENTAL_TYPES (0, [])
  have hmem : sym ∈ fundamentalsMemoUpdate
      [(sym, _task_fetch_fundamentals existing query startYear curYear curQuarter)] memo := by
    unfold fundamentalsMemoUpdate
    rw [List.foldl_cons]
    simp only [List.foldl_nil]
    by_cases hsm : sym ∈ memo
    · simp [hz, hsm]
    · simp [hz, hsm]
  refine ⟨hz, hmem, ?_⟩
  intro symbols existing2 sy cy cq hmem'
  rcases List.mem_filter.mp hmem' with ⟨_, hcond⟩
  rw [Bool.and_eq_true] at hcond
  exact (of_decide_eq_true hcond.1) hmem

/-- C10 witness: a symbol whose six statement types all fail with source
errors over target quarters 2023 Q1-Q2 lands in the memo and is excluded
from the next enumeration. -/
theorem fundamentals_error_only_symbol_memoized_witness :
    (_task_fetch_fundamentals (fun _ => []) (fun _ _ => FundOutcome.err) 2023 2023 2).1 = 0
    ∧ "sh.600000" ∈ fundamentalsMemoUpdate
        [("sh.600000",
          _task_fetch_fundamentals (fun _ => []) (fun _ _ => FundOutcome.err) 2023 2023 2)] []
    ∧ "sh.600000" ∉ _fundamentals_backfill_work ["sh.600000"]
        (fundamentalsMemoUpdate
          [("sh.600000",
            _task_fetch_fundamentals (fun _ => []) (fun _ _ => FundOutcome.err) 2023 2023 2)] [])
        (fun _ _ => []) 2023 2023 2 := by
  have h := fundamentals_error_only_symbol_memoized (fun _ => [])
    (fun _ _ => FundOutcome.err) 2023 2023 2 "sh.600000" [] (fun _ _ => rfl)
  exact ⟨h.1, h.2.1, h.2.2 ["sh.600000"] (fun _ _ => []) 2023 2023 2⟩
